import Mathlib

/-!
Verification of the MatrixProduct component described by the repository's
specification.  The repository is a single notebook
(`linear_transformations_as_function_application.ipynb`) whose computational
content is repeated invocation of the numeric product operator `@` on a
row vector or matrix `A` and a matrix `X`.  The operator itself lives in the
numeric library, not in the repository, so the operation `product` below is
modelled from the specification's contract; the notebook's concrete operands
and recorded outputs are embedded literally in the `NB` namespace.

Matrices are lists of rows of integers; a vector is a list of integers.
-/

/-- Error value for incompatible shapes, naming the two incompatible sizes:
the left operand's column count and the right operand's row count. -/
structure DimensionMismatch where
  leftCols : Nat
  rightRows : Nat
deriving DecidableEq

/-- A left operand of the product: either a row vector or a matrix.
The result of a successful product has the same alternative as the left
operand (a vector left operand yields a vector, dropping the singleton
row dimension). -/
inductive Operand where
  | vec (v : List Int)
  | mat (m : List (List Int))
deriving DecidableEq

/-- Column count of a matrix represented as a list of rows: the length of its
first row (0 for the empty matrix, whose column count the list representation
cannot retain). -/
def colsOf (X : List (List Int)) : Nat := (X.head?.getD []).length

/-- Well-formedness of the matrix representation: `X` has `M` rows and every
row has exactly `N` elements. -/
def isMatrix (M N : Nat) (X : List (List Int)) : Prop :=
  X.length = M ∧ ∀ row ∈ X, row.length = N

instance (M N : Nat) (X : List (List Int)) : Decidable (isMatrix M N X) := by
  unfold isMatrix
  infer_instance

/-- The list of elementwise products `f[j] * X[j][k]` for `j` ranging over the
rows of `X`: the terms whose sum is output position `k` of the vector-matrix
product. -/
def prodTerms (f : List Int) (X : List (List Int)) (k : Nat) : List Int :=
  (List.range X.length).map fun j => f.getD j 0 * (X.getD j []).getD k 0

/-- Vector-matrix product kernel: output position `k` is the dot product of
`f` with column `k` of `X`. -/
def vecMat (f : List Int) (X : List (List Int)) : List Int :=
  (List.range (colsOf X)).map fun k => (prodTerms f X k).sum

/-- Modelled from the spec: the MatrixProduct operation
`product(left, right)`.  The notebook invokes the numeric library's `@`
operator, whose implementation is not part of this repository; per the
specification, result element `(i, k)` is the sum over `j` of
`left[i][j] * right[j][k]`, a vector left operand is treated as a single row
and returns a vector, and a left operand whose column count differs from the
right operand's row count fails with `DimensionMismatch` naming the two
sizes. -/
def product : Operand → List (List Int) → Except DimensionMismatch Operand
  | .vec f, X =>
    if f.length = X.length then .ok (.vec (vecMat f X))
    else .error ⟨f.length, X.length⟩
  | .mat A, X =>
    if colsOf A = X.length then .ok (.mat (A.map fun row => vecMat row X))
    else .error ⟨colsOf A, X.length⟩

/-- Column count of a left operand; a vector is a single row, so its column
count is its length. -/
def leftCols : Operand → Nat
  | .vec v => v.length
  | .mat A => colsOf A

/-- One-hot row vector of length `N` with a 1 at position `i` and zeros
elsewhere. -/
def oneHot (N i : Nat) : List Int :=
  (List.range N).map fun j => if j = i then 1 else 0

/-- The `N×N` identity matrix: the stack of all `N` one-hot row vectors. -/
def identityMat (N : Nat) : List (List Int) :=
  (List.range N).map fun i => oneHot N i

/-- Sum of the entries of column `k` of `X`. -/
def colSum (X : List (List Int)) (k : Nat) : Int :=
  (X.map fun row => row.getD k 0).sum

namespace NB

/-- The notebook's matrix `X` (recorded output of cell 2 under seed 0). -/
def X : List (List Int) := [[4, 9, 3], [0, 3, 9], [7, 3, 7]]

/-- The notebook's first-row selector. -/
def f1 : List Int := [1, 0, 0]

/-- The notebook's second-row selector. -/
def f2 : List Int := [0, 1, 0]

/-- The notebook's double-and-sum weights. -/
def f3 : List Int := [2, 2, 2]

/-- The notebook's stacked matrix `F = stack([f1, f2, f3])`. -/
def F : List (List Int) := [f1, f2, f3]

end NB

theorem sum_range_list (n : Nat) (f : Nat → Int) :
    ((List.range n).map f).sum = ∑ j in Finset.range n, f j := by
  induction n with
  | zero => simp
  | succ m ih =>
    rw [List.range_succ, List.map_append, List.sum_append, Finset.sum_range_succ, ih]
    simp

theorem map_getD_range {α : Type} (l : List α) (d : α) :
    (List.range l.length).map (fun k => l.getD k d) = l := by
  apply List.ext_getElem
  · simp
  · intro i h1 h2
    rw [List.getElem_map, List.getElem_range, List.getD_eq_getElem l d h2]

theorem colsOf_eq (N K : Nat) (X : List (List Int)) (hN : 0 < N)
    (hX : isMatrix N K X) : colsOf X = K := by
  obtain ⟨hlen, hrows⟩ := hX
  cases X with
  | nil =>
    have h0 : N = 0 := by simpa using hlen.symm
    exact absurd h0 (by omega)
  | cons x xs =>
    exact hrows x (by simp)

theorem rowLen_eq (N K : Nat) (X : List (List Int)) (i : Nat) (hi : i < N)
    (hX : isMatrix N K X) : (X.getD i []).length = K := by
  have h : i < X.length := by rw [hX.1]; exact hi
  rw [List.getD_eq_getElem X [] h]
  exact hX.2 _ (List.getElem_mem h)

theorem vecMat_eq_formula (N K : Nat) (f : List Int) (X : List (List Int))
    (hN : 0 < N) (hX : isMatrix N K X) :
    vecMat f X = (List.range K).map fun k =>
      ∑ j in Finset.range N, f.getD j 0 * (X.getD j []).getD k 0 := by
  have hc : colsOf X = K := colsOf_eq N K X hN hX
  have hl : X.length = N := hX.1
  rw [vecMat, hc]
  refine List.map_congr_left ?_
  intro k _
  rw [prodTerms, sum_range_list, hl]

/-- Claim C1: on the notebook's concrete operands, the product returns exactly
the recorded outputs: `f1 @ X = [4,9,3]`, `f2 @ X = [0,3,9]`,
`f3 @ X = [22,30,38]`, and `F @ X = [[4,9,3],[0,3,9],[22,30,38]]`. -/
theorem notebook_concrete_products :
    product (.vec NB.f1) NB.X = .ok (.vec [4, 9, 3]) ∧
    product (.vec NB.f2) NB.X = .ok (.vec [0, 3, 9]) ∧
    product (.vec NB.f3) NB.X = .ok (.vec [22, 30, 38]) ∧
    product (.mat NB.F) NB.X = .ok (.mat [[4, 9, 3], [0, 3, 9], [22, 30, 38]]) :=
  ⟨rfl, rfl, rfl, rfl⟩

/-- Claim C3: the product fails exactly when the left operand's column count
differs from the right operand's row count, the only failure value is the
`DimensionMismatch` naming those two sizes, and otherwise the operation
succeeds (it never silently truncates or pads). -/
theorem product_error_characterization :
    ∀ (l : Operand) (X : List (List Int)),
      (product l X = .error ⟨leftCols l, X.length⟩ ↔ leftCols l ≠ X.length) ∧
      (∀ e, product l X = .error e → e = ⟨leftCols l, X.length⟩) ∧
      ((∃ r, product l X = .ok r) ↔ leftCols l = X.length) := by
  intro l X
  cases l with
  | vec f =>
    by_cases h : f.length = X.length
    · simp [product, leftCols, h]
    · simp [product, leftCols, h]
  | mat A =>
    by_cases h : colsOf A = X.length
    · simp [product, leftCols, h]
    · simp [product, leftCols, h]

/-- Spot check for C3: a length-2 vector against a 3-row matrix fails with the
error naming 2 and 3. -/
theorem product_error_characterization_witness :
    product (.vec [1, 2]) [[1], [2], [3]] = .error ⟨2, 3⟩ :=
  (product_error_characterization (.vec [1, 2]) [[1], [2], [3]]).1.mpr (by decide)

/-- Claim C8: the product is a deterministic pure function of its operands:
equal operands give equal results (in this embedding operands are immutable
values, so absence of mutation and of side effects is inherent). -/
theorem product_deterministic :
    ∀ (l l2 : Operand) (r r2 : List (List Int)),
      l = l2 → r = r2 → product l r = product l2 r2 := by
  intro l l2 r r2 h1 h2
  rw [h1, h2]

/-- Spot check for C8 at the notebook's operands. -/
theorem product_deterministic_witness :
    product (.vec NB.f1) NB.X = product (.vec NB.f1) NB.X :=
  product_deterministic (.vec NB.f1) (.vec NB.f1) NB.X NB.X rfl rfl

theorem oneHot_length (N i : Nat) : (oneHot N i).length = N := by
  simp [oneHot]

theorem oneHot_getD (N i j : Nat) (hj : j < N) :
    (oneHot N i).getD j 0 = if j = i then 1 else 0 := by
  have h : j < (oneHot N i).length := by rw [oneHot_length]; exact hj
  rw [List.getD_eq_getElem _ _ h]
  simp [oneHot]

theorem vecMat_oneHot (N K i : Nat) (X : List (List Int)) (hi : i < N)
    (hX : isMatrix N K X) : vecMat (oneHot N i) X = X.getD i [] := by
  have hN : 0 < N := by omega
  rw [vecMat_eq_formula N K _ X hN hX]
  have hrow : (X.getD i []).length = K := rowLen_eq N K X i hi hX
  have hsum : ∀ k, ∑ j in Finset.range N,
      (oneHot N i).getD j 0 * (X.getD j []).getD k 0 = (X.getD i []).getD k 0 := by
    intro k
    rw [Finset.sum_eq_single_of_mem i (Finset.mem_range.mpr hi)]
    · rw [oneHot_getD N i i hi]
      simp
    · intro j hj hne
      rw [oneHot_getD N i j (Finset.mem_range.mp hj)]
      simp [hne]
  calc (List.range K).map (fun k =>
        ∑ j in Finset.range N, (oneHot N i).getD j 0 * (X.getD j []).getD k 0)
      = (List.range K).map (fun k => (X.getD i []).getD k 0) :=
        List.map_congr_left (fun k _ => hsum k)
    _ = X.getD i [] := by rw [← hrow]; exact map_getD_range _ 0

theorem colSum_eq (X : List (List Int)) (k : Nat) :
    colSum X k = ∑ j in Finset.range X.length, (X.getD j []).getD k 0 := by
  rw [colSum]
  conv_lhs => rw [← map_getD_range X []]
  rw [List.map_map, sum_range_list]
  rfl

theorem colsOf_identityMat (N : Nat) : colsOf (identityMat N) = N := by
  cases N with
  | zero => rfl
  | succ n =>
    rw [identityMat, List.range_succ_eq_map]
    simp [colsOf, oneHot]

/-- Claim C2: each result element `(i, k)` of the product is the sum over `j`
in `[0, N)` of `left[i][j] * right[j][k]`; a vector left operand is treated as
a single row and the singleton row dimension is dropped, giving a vector of
length `K`. -/
theorem product_elementwise_formula :
    (∀ (N K : Nat) (f : List Int) (X : List (List Int)),
        0 < N → f.length = N → isMatrix N K X →
        product (.vec f) X = .ok (.vec ((List.range K).map fun k =>
          ∑ j in Finset.range N, f.getD j 0 * (X.getD j []).getD k 0))) ∧
    (∀ (M N K : Nat) (A X : List (List Int)),
        0 < M → 0 < N → isMatrix M N A → isMatrix N K X →
        product (.mat A) X = .ok (.mat ((List.range M).map fun i =>
          (List.range K).map fun k =>
            ∑ j in Finset.range N, (A.getD i []).getD j 0 * (X.getD j []).getD k 0))) := by
  constructor
  · intro N K f X hN hf hX
    have hlen : f.length = X.length := by rw [hf, hX.1]
    simp only [product]
    rw [if_pos hlen, vecMat_eq_formula N K f X hN hX]
  · intro M N K A X hM hN hA hX
    have hcond : colsOf A = X.length := by rw [colsOf_eq M N A hM hA, hX.1]
    simp only [product]
    rw [if_pos hcond]
    refine congrArg (fun R => Except.ok (Operand.mat R)) ?_
    calc A.map (fun row => vecMat row X)
        = A.map (fun row => (List.range K).map fun k =>
            ∑ j in Finset.range N, row.getD j 0 * (X.getD j []).getD k 0) :=
          List.map_congr_left (fun row _ => vecMat_eq_formula N K row X hN hX)
      _ = ((List.range A.length).map (fun i => A.getD i [])).map
            (fun row => (List.range K).map fun k =>
              ∑ j in Finset.range N, row.getD j 0 * (X.getD j []).getD k 0) := by
          rw [map_getD_range]
      _ = (List.range M).map (fun i => (List.range K).map fun k =>
            ∑ j in Finset.range N, (A.getD i []).getD j 0 * (X.getD j []).getD k 0) := by
          rw [List.map_map, hA.1]
          rfl

/-- Spot check for C2 at the notebook's first operand pair. -/
theorem product_elementwise_formula_witness :
    product (.vec NB.f1) NB.X = .ok (.vec ((List.range 3).map fun k =>
      ∑ j in Finset.range 3, NB.f1.getD j 0 * (NB.X.getD j []).getD k 0)) :=
  product_elementwise_formula.1 3 3 NB.f1 NB.X (by decide) (by decide) (by decide)

/-- Claim C4: for compatible shapes the output is a vector of length `K` when
the left operand is a vector of length `N` and the right operand is `N×K`,
and an `M×K` matrix when the left operand is `M×N`. -/
theorem product_output_shape :
    (∀ (N K : Nat) (f : List Int) (X : List (List Int)),
        0 < N → f.length = N → isMatrix N K X →
        ∃ r, product (.vec f) X = .ok (.vec r) ∧ r.length = K) ∧
    (∀ (M N K : Nat) (A X : List (List Int)),
        0 < M → 0 < N → isMatrix M N A → isMatrix N K X →
        ∃ R, product (.mat A) X = .ok (.mat R) ∧ isMatrix M K R) := by
  constructor
  · intro N K f X hN hf hX
    refine ⟨vecMat f X, ?_, ?_⟩
    · simp only [product]
      rw [if_pos (by rw [hf, hX.1])]
    · rw [vecMat]
      simp [colsOf_eq N K X hN hX]
  · intro M N K A X hM hN hA hX
    refine ⟨A.map (fun row => vecMat row X), ?_, ?_, ?_⟩
    · simp only [product]
      rw [if_pos (by rw [colsOf_eq M N A hM hA, hX.1])]
    · simp [hA.1]
    · intro row hrow
      obtain ⟨a, _, rfl⟩ := List.mem_map.mp hrow
      rw [vecMat]
      simp [colsOf_eq N K X hN hX]

/-- Spot check for C4 at the notebook's stacked operands. -/
theorem product_output_shape_witness :
    ∃ R, product (.mat NB.F) NB.X = .ok (.mat R) ∧ isMatrix 3 3 R :=
  product_output_shape.2 3 3 3 NB.F NB.X (by decide) (by decide) (by decide) (by decide)

/-- Claim C5: applying the one-hot vector with a 1 at position `i` to an
`N×K` matrix `X` returns exactly row `i` of `X`. -/
theorem oneHot_product_selects_row :
    ∀ (N K i : Nat) (X : List (List Int)), i < N → isMatrix N K X →
      product (.vec (oneHot N i)) X = .ok (.vec (X.getD i [])) := by
  intro N K i X hi hX
  simp only [product]
  rw [if_pos (by rw [oneHot_length, hX.1]), vecMat_oneHot N K i X hi hX]

/-- Spot check for C5: the notebook's second selector returns the second
row. -/
theorem oneHot_product_selects_row_witness :
    product (.vec (oneHot 3 1)) NB.X = .ok (.vec (NB.X.getD 1 [])) :=
  oneHot_product_selects_row 3 3 1 NB.X (by decide) (by decide)

/-- Claim C6: applying the length-`N` vector whose entries all equal `c` to an
`N×K` matrix `X` returns, for each column, `c` times the sum of that column's
entries. -/
theorem const_weights_product_scales_column_sums :
    ∀ (c : Int) (N K : Nat) (X : List (List Int)), 0 < N → isMatrix N K X →
      product (.vec (List.replicate N c)) X =
        .ok (.vec ((List.range K).map fun k => c * colSum X k)) := by
  intro c N K X hN hX
  have hlen : (List.replicate N c).length = X.length := by
    rw [List.length_replicate, hX.1]
  simp only [product]
  rw [if_pos hlen, vecMat_eq_formula N K _ X hN hX]
  refine congrArg (fun v => Except.ok (Operand.vec v)) ?_
  refine List.map_congr_left ?_
  intro k _
  rw [colSum_eq, hX.1, Finset.mul_sum]
  refine Finset.sum_congr rfl ?_
  intro j hj
  have hjN : j < N := Finset.mem_range.mp hj
  rw [List.getD_eq_getElem _ _ (by simpa using hjN), List.getElem_replicate]

/-- Spot check for C6: the notebook's all-twos vector doubles the column
sums of `X`. -/
theorem const_weights_product_scales_column_sums_witness :
    product (.vec (List.replicate 3 (2 : Int))) NB.X =
      .ok (.vec ((List.range 3).map fun k => 2 * colSum NB.X k)) :=
  const_weights_product_scales_column_sums 2 3 3 NB.X (by decide) (by decide)

/-- Claim C7: row `i` of `F @ X` equals row `i` of `F` applied to `X`
independently (batch consistency). -/
theorem batch_row_consistency :
    ∀ (M N K i : Nat) (A X : List (List Int)), i < M →
      isMatrix M N A → isMatrix N K X →
      ∃ R r, product (.mat A) X = .ok (.mat R) ∧
        product (.vec (A.getD i [])) X = .ok (.vec r) ∧ R.getD i [] = r := by
  intro M N K i A X hi hA hX
  refine ⟨A.map (fun row => vecMat row X), vecMat (A.getD i []) X, ?_, ?_, ?_⟩
  · simp only [product]
    rw [if_pos (by rw [colsOf_eq M N A (by omega) hA, hX.1])]
  · have hrow : (A.getD i []).length = N := rowLen_eq M N A i hi hA
    simp only [product]
    rw [if_pos (by rw [hrow, hX.1])]
  · have hiA : i < A.length := by rw [hA.1]; exact hi
    rw [List.getD_eq_getElem _ _ (by simpa using hiA), List.getElem_map,
      List.getD_eq_getElem A [] hiA]

/-- Spot check for C7 at the notebook's stacked matrix, row 2. -/
theorem batch_row_consistency_witness :
    ∃ R r, product (.mat NB.F) NB.X = .ok (.mat R) ∧
      product (.vec (NB.F.getD 2 [])) NB.X = .ok (.vec r) ∧ R.getD 2 [] = r :=
  batch_row_consistency 3 3 3 2 NB.F NB.X (by decide) (by decide) (by decide)

/-- Claim C9: over the integers the product is exact, so each result element
is independent of the order in which its `N` products are summed: any
permutation of the term list sums to the result element. -/
theorem product_sum_order_independent :
    ∀ (f : List Int) (X : List (List Int)) (k : Nat) (l : List Int),
      k < colsOf X → (prodTerms f X k).Perm l →
      l.sum = (vecMat f X).getD k 0 := by
  intro f X k l hk hperm
  have hk2 : k < (vecMat f X).length := by simpa [vecMat] using hk
  have h1 : (vecMat f X).getD k 0 = (prodTerms f X k).sum := by
    rw [List.getD_eq_getElem _ _ hk2]
    simp [vecMat]
  rw [h1]
  exact hperm.sum_eq.symm

/-- Spot check for C9: a reordering of the double-and-sum terms for column 0
still sums to the recorded result element 22. -/
theorem product_sum_order_independent_witness :
    ([(14 : Int), 0, 8]).sum = (vecMat NB.f3 NB.X).getD 0 0 :=
  product_sum_order_independent NB.f3 NB.X 0 [14, 0, 8] (by decide) (by decide)

/-- Claim C10: the `N×N` identity matrix (the stack of all `N` one-hot row
vectors) is a left identity for the product: `product(I_N, X) = X`. -/
theorem identity_product_left_identity :
    ∀ (N K : Nat) (X : List (List Int)), isMatrix N K X →
      product (.mat (identityMat N)) X = .ok (.mat X) := by
  intro N K X hX
  simp only [product]
  rw [if_pos (by rw [colsOf_identityMat, hX.1])]
  refine congrArg (fun A => Except.ok (Operand.mat A)) ?_
  rw [identityMat, List.map_map]
  have h1 : ∀ i ∈ List.range N, vecMat (oneHot N i) X = X.getD i [] := by
    intro i hi
    exact vecMat_oneHot N K i X (List.mem_range.mp hi) hX
  calc (List.range N).map ((fun row => vecMat row X) ∘ fun i => oneHot N i)
      = (List.range N).map (fun i => X.getD i []) := List.map_congr_left h1
    _ = X := by rw [← hX.1]; exact map_getD_range X []

/-- Spot check for C10 at the notebook's matrix `X`. -/
theorem identity_product_left_identity_witness :
    product (.mat (identityMat 3)) NB.X = .ok (.mat NB.X) :=
  identity_product_left_identity 3 3 NB.X (by decide)
